import Mathlib

/-!
Shallow embedding of the two scripts of the reverie_ppr repository:
kkw_param.py (a brute-force KKW parameter search) and parse_result.py
(a benchmark-log parser), together with theorems about them.

Modelling conventions:
* Python integers are `Nat`.
* The floating-point quantities of kkw_param.py (the divisions d = a/b and
  e = d/c, and the threshold target = 0.5 ** 60) are modelled as exact
  rationals.  The OverflowError that CPython raises when a true-division
  result, or an int converted to float, exceeds the IEEE double range is
  modelled by the explicit predicate `err_sg_ovf`, with the double overflow
  threshold 2 ^ 1024 (the exact CPython boundary differs from 2 ^ 1024 by
  less than one unit in the last place; no claim depends on the boundary).
* Exponents and loop bounds that are always non-negative at every call site
  of the scripts are represented with truncated Nat subtraction.
-/

namespace Reverie

/-- Python `range(start, stop, -1)`: the list `start, start - 1, ..., stop + 1`
(empty when `stop ≥ start`). -/
def pyRangeDown (start stop : ℕ) : List ℕ :=
  (List.range (start - stop)).map (fun i => start - i)

/-- Python `range(start, stop)` with step 1, on natural bounds. -/
def pyRange (start stop : ℕ) : List ℕ :=
  List.range' start (stop - start)

/-- The numerator of `ncr` in kkw_param.py:
`reduce(op.mul, range(n, n - r, -1), 1)` after the reassignment
`r = min(r, n - r)`. -/
def ncrNumer (n r : ℕ) : ℕ :=
  (pyRangeDown n (n - min r (n - r))).prod

/-- The denominator of `ncr` in kkw_param.py:
`reduce(op.mul, range(1, r + 1), 1)` after the reassignment
`r = min(r, n - r)`. -/
def ncrDenom (n r : ℕ) : ℕ :=
  (List.range' 1 (min r (n - r))).prod

/-- `ncr` from kkw_param.py: `numer // denom`. -/
def ncr (n r : ℕ) : ℕ := ncrNumer n r / ncrDenom n r

/-- `n = 16`, the number of parties simulated (kkw_param.py, line 12). -/
def n : ℕ := 16

/-- `target = 0.5 ** 60`, the statistical security threshold; `0.5 ** 60`
is an exactly representable double, so the rational value is exact. -/
def target : ℚ := (1 / 2) ^ 60

/-- Overflow model for the two divisions inside `err_sg`.  CPython raises
OverflowError in `d = a / b` when the true quotient exceeds the IEEE double
range, and in `e = d / c` when the int `c` is too large to convert to a
double.  Both are modelled with the threshold 2 ^ 1024. -/
def err_sg_ovf (M tau nn rho : ℕ) : Bool :=
  decide (2 ^ 1024 * ncr M (M - tau) ≤ ncr rho (M - tau)) ||
    decide ((2 : ℕ) ^ 1024 ≤ nn ^ (rho + tau - M))

/-- `err_sg` from kkw_param.py: with `a = ncr(rho, M - tau)`,
`b = ncr(M, M - tau)` and `c = n ** (rho - M + tau)`, return `(a / b) / c`,
or `0.0` when the computation overflows.  The exponent `rho - M + tau` is
written `rho + tau - M`; the two coincide whenever `M ≤ rho + tau`, which
holds at every call site of the script. -/
def err_sg (M tau nn rho : ℕ) : ℚ :=
  if err_sg_ovf M tau nn rho then 0
  else ((ncr rho (M - tau) : ℚ) / (ncr M (M - tau) : ℚ)) / ((nn : ℚ) ^ (rho + tau - M))

/-- The rho loop range of `err`: Python `range(M - tau + 1, M + 1)`. -/
def rhoRange (M tau : ℕ) : List ℕ := pyRange (M - tau + 1) (M + 1)

/-- The accumulation pattern of the loop body of `err`:
`if ret > base: base = ret`. -/
def foldMax (f : ℕ → ℚ) (b : ℚ) (l : List ℕ) : ℚ :=
  l.foldl (fun base x => if base < f x then f x else base) b

/-- The local variable `base` of `err` after its loop over rho. -/
def err_base (M tau nn : ℕ) : ℚ :=
  foldMax (err_sg M tau nn) 0 (rhoRange M tau)

/-- `err` from kkw_param.py, with the mutated global list made explicit:
append `(M, tau)` to the list exactly when `base < target`. -/
def err (M tau nn : ℕ) (lst : List (ℕ × ℕ)) : List (ℕ × ℕ) :=
  if err_base M tau nn < target then lst ++ [(M, tau)] else lst

/-- The (M, tau) pairs visited by the main loops:
`for M in range(64, 512, 8): for tau in range(8, 50, 8)`. -/
def searchParams : List (ℕ × ℕ) :=
  (List.range' 64 56 8).flatMap (fun M => (List.range' 8 6 8).map (fun tau => (M, tau)))

/-- Folding `err` over a list of (M, tau) pairs, starting from a given
candidate list: the body of the main loops. -/
def searchFold (nn : ℕ) (acc : List (ℕ × ℕ)) (pairs : List (ℕ × ℕ)) : List (ℕ × ℕ) :=
  pairs.foldl (fun a q => err q.1 q.2 nn a) acc

/-- The candidate list `lst` after the full search of kkw_param.py. -/
def runSearch : List (ℕ × ℕ) := searchFold n [] searchParams

/-- First statement of the selection loop body:
`if tp[1] < min_tuples[1]: min_tuples = tp`. -/
def minStep1 (best tp : ℕ × ℕ) : ℕ × ℕ :=
  if tp.2 < best.2 then tp else best

/-- Second statement of the selection loop body:
`if tp[0] < min_tuples[0] and tp[1] == min_tuples[1]: min_tuples = tp`,
evaluated against the possibly already-updated holder. -/
def minStep2 (best tp : ℕ × ℕ) : ℕ × ℕ :=
  if tp.1 < best.1 ∧ tp.2 = best.2 then tp else best

/-- One full iteration of the selection loop. -/
def minStep (best tp : ℕ × ℕ) : ℕ × ℕ := minStep2 (minStep1 best tp) tp

/-- The best-candidate selector of kkw_param.py: scan the candidate list
starting from the sentinel `(10000, 10000)`. -/
def min_tuples (lst : List (ℕ × ℕ)) : ℕ × ℕ :=
  lst.foldl minStep (10000, 10000)

/-- Lexicographic comparison by tau first, then M: the order the selector
is claimed to minimize. -/
def lexLe (p q : ℕ × ℕ) : Prop :=
  p.2 < q.2 ∨ (p.2 = q.2 ∧ p.1 ≤ q.1)

/-! Embedding of parse_result.py.  A log line is modelled by the data the
script extracts from it: a size line carries the first integer of the line,
an elapsed line carries the first decimal number (as an exact rational;
its value is irrelevant to the claims), and every other line is `other`.
Lines whose prefix matches but which contain no number would crash the
regex extraction; such lines are outside the model. -/

inductive LogLine where
  | size (v : ℕ)
  | elapsed (v : ℚ)
  | other
deriving DecidableEq

/-- Whether a line starts with the serialized-size prefix. -/
def LogLine.isSize : LogLine → Bool
  | .size _ => true
  | _ => false

/-- The Python exceptions the parser can die of: `NameError`
(`circuit_name` used before assignment), `IndexError`
(`circuit_names[i]` with `i` out of range), `KeyError`
(`data['time_ms']` missing at CSV-writing time). -/
inductive PError where
  | nameError
  | indexError
  | keyError
deriving DecidableEq

/-- One value of the `parsed_data` dict: a circuit name, its size, and its
time when one has been recorded. -/
structure PEntry where
  name : String
  size : ℕ
  time : Option ℚ
deriving DecidableEq

/-- The loop state of parse_result.py: the variable `circuit_name` (unset
until the first size line) and the insertion-ordered dict `parsed_data`. -/
structure PState where
  circuit_name : Option String
  parsed : List PEntry
deriving DecidableEq

/-- `parsed_data[k] = {'size': sz}`: replace in place, or append. -/
def dictInsert (d : List PEntry) (k : String) (sz : ℕ) : List PEntry :=
  if d.any (fun e => e.name == k) then
    d.map (fun e => if e.name == k then ⟨k, sz, none⟩ else e)
  else d ++ [⟨k, sz, none⟩]

/-- `parsed_data[k]['time_ms'] = t`: `none` when the key is absent
(Python KeyError). -/
def dictSetTime (d : List PEntry) (k : String) (t : ℚ) : Option (List PEntry) :=
  if d.any (fun e => e.name == k) then
    some (d.map (fun e => if e.name == k then ⟨e.name, e.size, some t⟩ else e))
  else none

/-- One iteration of the line loop of parse_result.py, at line index `i`. -/
def parseStep (names : List String) (st : PState) (i : ℕ) (l : LogLine) :
    Except PError PState :=
  match l with
  | .size v =>
    match names.get? i with
    | some cname => .ok ⟨some cname, dictInsert st.parsed cname v⟩
    | none => .error .indexError
  | .elapsed t =>
    match st.circuit_name with
    | none => .error .nameError
    | some cname =>
      match dictSetTime st.parsed cname t with
      | some d => .ok ⟨some cname, d⟩
      | none => .error .keyError
  | .other => .ok st

/-- The `for i, line in enumerate(lines)` loop, starting at index `i`. -/
def parseLoop (names : List String) (st : PState) (i : ℕ) :
    List LogLine → Except PError PState
  | [] => .ok st
  | l :: ls =>
    match parseStep names st i l with
    | .ok st2 => parseLoop names st2 (i + 1) ls
    | .error e => .error e

/-- The CSV-writing loop: one row per dict entry, in insertion order;
dies of KeyError on an entry with no recorded time. -/
def writeRows : List PEntry → Except PError (List (String × ℕ × ℚ))
  | [] => .ok []
  | e :: es =>
    match e.time with
    | none => .error .keyError
    | some t =>
      match writeRows es with
      | .ok rows => .ok ((e.name, e.size, t) :: rows)
      | .error er => .error er

/-- The whole of parse_result.py on a given name list and log content:
run the line loop, then write the rows. -/
def runParser (names : List String) (lines : List LogLine) :
    Except PError (List (String × ℕ × ℚ)) :=
  match parseLoop names ⟨none, []⟩ 0 lines with
  | .ok st => writeRows st.parsed
  | .error e => .error e

/-- Whether the run died of an exception. -/
def isFailure {α : Type} : Except PError α → Bool
  | .error _ => true
  | .ok _ => false

/-- The hardcoded circuit-name list of parse_result.py. -/
def circuit_names : List String :=
  ["amortized_aco_512_12.txt", "amortized_aco_128_9.txt", "amortized_aco_128_8.txt",
   "amortized_aco_64_8.txt", "amortized_aco_64_9.txt", "amortized_aco_256_9.txt",
   "amortized_aco_256_10.txt", "amortized_aco_512_7.txt", "amortized_aco_512_11.txt",
   "amortized_aco_512_9.txt", "amortized_aco_128_10.txt", "amortized_aco_128_11.txt",
   "amortized_aco_128_12.txt", "amortized_aco_256_12.txt", "amortized_aco_256_11.txt",
   "amortized_aco_256_8.txt", "amortized_aco_64_12.txt", "amortized_aco_512_10.txt",
   "amortized_aco_64_11.txt", "amortized_aco_128_7.txt", "amortized_aco_512_8.txt",
   "amortized_aco_256_7.txt", "amortized_aco_64_7.txt", "amortized_aco_64_10.txt",
   "amortized_akv.txt"]

set_option maxRecDepth 100000

set_option exponentiation.threshold 2000

/-! Lemmas about the combinatorics helper. -/

lemma range_map_sub_prod (m k : ℕ) :
    ((List.range k).map (fun i => m - i)).prod = m.descFactorial k := by
  induction k with
  | zero => rfl
  | succ k ih =>
    rw [List.range_succ, List.map_append, List.prod_append, ih,
      Nat.descFactorial_succ]
    simp [Nat.mul_comm]

lemma range'_one_prod (k : ℕ) : (List.range' 1 k).prod = k.factorial := by
  induction k with
  | zero => rfl
  | succ k ih =>
    rw [List.range'_concat, List.prod_append, ih, Nat.factorial_succ]
    simp [Nat.mul_comm, Nat.add_comm]

lemma min_r_le (m r : ℕ) : min r (m - r) ≤ m :=
  le_trans (min_le_right r (m - r)) (Nat.sub_le m r)

lemma ncrNumer_eq (m r : ℕ) : ncrNumer m r = m.descFactorial (min r (m - r)) := by
  unfold ncrNumer pyRangeDown
  rw [Nat.sub_sub_self (min_r_le m r)]
  exact range_map_sub_prod m _

lemma ncrDenom_eq (m r : ℕ) : ncrDenom m r = (min r (m - r)).factorial :=
  range'_one_prod _

lemma ncr_eq_choose {m r : ℕ} (h : r ≤ m) : ncr m r = m.choose r := by
  unfold ncr
  rw [ncrNumer_eq, ncrDenom_eq, ← Nat.choose_eq_descFactorial_div_factorial]
  rcases Nat.le_total r (m - r) with h1 | h1
  · rw [min_eq_left h1]
  · rw [min_eq_right h1, Nat.choose_symm h]

/-- C4: for every pair of non-negative integers n, r with r ≤ n, `ncr n r`
returns the exact integer value of n!/(r!(n-r)!) (using the numerically
smaller of r and n-r, with exact integer arithmetic); in particular
ncr 10 3 = 120, ncr 0 0 = 1 and ncr 5 5 = 1. -/
theorem ncr_factorial_formula :
    (∀ m r : ℕ, r ≤ m →
      ncr m r = m.factorial / (r.factorial * (m - r).factorial)) ∧
    ncr 10 3 = 120 ∧ ncr 0 0 = 1 ∧ ncr 5 5 = 1 := by
  refine ⟨fun m r h => ?_, by decide, by decide, by decide⟩
  rw [ncr_eq_choose h, Nat.choose_eq_factorial_div_factorial h]

/-- Witness for C4 at n = 10, r = 3. -/
theorem ncr_factorial_formula_w :
    ncr 10 3 = Nat.factorial 10 / (Nat.factorial 3 * Nat.factorial (10 - 3)) :=
  ncr_factorial_formula.1 10 3 (by decide)

/-- C10: for every n, r with r ≤ n, the floor division inside `ncr` is
exact: the denominator (min r (n-r))! divides the descending-product
numerator with zero remainder, so `ncr` never silently truncates. -/
theorem ncr_division_exact :
    ∀ m r : ℕ, r ≤ m →
      ncrDenom m r ∣ ncrNumer m r ∧ ncrDenom m r * ncr m r = ncrNumer m r := by
  intro m r _
  have hd : ncrDenom m r ∣ ncrNumer m r := by
    rw [ncrNumer_eq, ncrDenom_eq]
    exact Nat.factorial_dvd_descFactorial m _
  exact ⟨hd, Nat.mul_div_cancel' hd⟩

/-- Witness for C10 at n = 10, r = 3. -/
theorem ncr_division_exact_w : ncrDenom 10 3 ∣ ncrNumer 10 3 :=
  (ncr_division_exact 10 3 (by decide)).1

/-! Lemmas about the best-candidate selector. -/

lemma lexLe_refl (p : ℕ × ℕ) : lexLe p p := Or.inr ⟨rfl, le_refl _⟩

lemma lexLe_trans {p q r : ℕ × ℕ} (h1 : lexLe p q) (h2 : lexLe q r) : lexLe p r := by
  rcases h1 with h1 | ⟨h1a, h1b⟩ <;> rcases h2 with h2 | ⟨h2a, h2b⟩
  · exact Or.inl (lt_trans h1 h2)
  · exact Or.inl (h2a ▸ h1)
  · exact Or.inl (h1a ▸ h2)
  · exact Or.inr ⟨h1a.trans h2a, h1b.trans h2b⟩

lemma minStep_cases (b tp : ℕ × ℕ) : minStep b tp = b ∨ minStep b tp = tp := by
  unfold minStep minStep1 minStep2
  split_ifs <;> simp

lemma minStep_le_left (b tp : ℕ × ℕ) : lexLe (minStep b tp) b := by
  unfold minStep minStep1 minStep2
  by_cases h1 : tp.2 < b.2
  · rw [if_pos h1, ite_self]
    exact Or.inl h1
  · rw [if_neg h1]
    by_cases h2 : tp.1 < b.1 ∧ tp.2 = b.2
    · rw [if_pos h2]
      exact Or.inr ⟨h2.2, le_of_lt h2.1⟩
    · rw [if_neg h2]
      exact lexLe_refl b

lemma minStep_le_right (b tp : ℕ × ℕ) : lexLe (minStep b tp) tp := by
  unfold minStep minStep1 minStep2
  by_cases h1 : tp.2 < b.2
  · rw [if_pos h1, ite_self]
    exact lexLe_refl tp
  · rw [if_neg h1]
    by_cases h2 : tp.1 < b.1 ∧ tp.2 = b.2
    · rw [if_pos h2]
      exact lexLe_refl tp
    · rw [if_neg h2]
      have h4 : b.2 ≤ tp.2 := Nat.le_of_not_lt h1
      rcases Nat.eq_or_lt_of_le h4 with h5 | h5
      · refine Or.inr ⟨h5, ?_⟩
        by_contra h6
        exact h2 ⟨Nat.lt_of_not_le h6, h5.symm⟩
      · exact Or.inl h5

lemma foldl_minStep_spec (l : List (ℕ × ℕ)) :
    ∀ b : ℕ × ℕ,
      (l.foldl minStep b = b ∨ l.foldl minStep b ∈ l) ∧
      lexLe (l.foldl minStep b) b ∧ ∀ p ∈ l, lexLe (l.foldl minStep b) p := by
  induction l with
  | nil =>
    intro b
    exact ⟨Or.inl rfl, lexLe_refl b, by simp⟩
  | cons x xs ih =>
    intro b
    simp only [List.foldl_cons]
    obtain ⟨hmem, hle, hall⟩ := ih (minStep b x)
    refine ⟨?_, lexLe_trans hle (minStep_le_left b x), ?_⟩
    · rcases hmem with h | h
      · rcases minStep_cases b x with h2 | h2
        · exact Or.inl (h.trans h2)
        · exact Or.inr (by rw [h, h2]; exact List.mem_cons_self x xs)
      · exact Or.inr (List.mem_cons_of_mem x h)
    · intro p hp
      rcases List.mem_cons.mp hp with rfl | hp2
      · exact lexLe_trans hle (minStep_le_right b p)
      · exact hall p hp2

lemma min_tuples_spec {l : List (ℕ × ℕ)} (hne : l ≠ [])
    (hb : ∀ p ∈ l, p.2 ≤ 48) :
    min_tuples l ∈ l ∧ ∀ p ∈ l, lexLe (min_tuples l) p := by
  obtain ⟨hmem, _, hall⟩ := foldl_minStep_spec l (10000, 10000)
  rcases hmem with h | h
  · exfalso
    obtain ⟨p, hp⟩ := List.exists_mem_of_ne_nil l hne
    have h1 := hall p hp
    have h2 := hb p hp
    rw [h] at h1
    rcases h1 with h1 | ⟨h1, _⟩
    · exact absurd (lt_of_lt_of_le h1 h2) (by decide)
    · omega
  · exact ⟨h, hall⟩

/-- C2: for every nonempty candidate list whose entries satisfy M ≤ 504 and
tau ≤ 48, the scan starting from the sentinel (10000, 10000) ends holding an
entry of the list with the smallest tau among all candidates, ties on tau
broken by smallest M. -/
theorem min_tuples_correct (l : List (ℕ × ℕ)) (hne : l ≠ [])
    (hb : ∀ p ∈ l, p.1 ≤ 504 ∧ p.2 ≤ 48) :
    min_tuples l ∈ l ∧
      ∀ p ∈ l, (min_tuples l).2 < p.2 ∨
        ((min_tuples l).2 = p.2 ∧ (min_tuples l).1 ≤ p.1) := by
  have h := min_tuples_spec hne (fun p hp => (hb p hp).2)
  exact ⟨h.1, fun p hp => h.2 p hp⟩

/-- Witness for C2 on the list [(100, 16), (200, 8)]. -/
theorem min_tuples_correct_w :
    min_tuples [(100, 16), (200, 8)] ∈ [((100 : ℕ), (16 : ℕ)), (200, 8)] :=
  (min_tuples_correct [(100, 16), (200, 8)] (by decide) (by decide)).1

/-- C8: on an empty candidate list the scan leaves the best-result holder
unchanged, so the final printed output is the sentinel pair (10000, 10000). -/
theorem min_tuples_empty :
    (∀ b : ℕ × ℕ, List.foldl minStep b [] = b) ∧
      min_tuples [] = (10000, 10000) :=
  ⟨fun _ => rfl, rfl⟩

/-! Lemmas about the maximum-accumulating loop of err. -/

lemma le_foldMax_init (f : ℕ → ℚ) (l : List ℕ) :
    ∀ b : ℚ, b ≤ foldMax f b l := by
  induction l with
  | nil => intro b; exact le_refl b
  | cons x xs ih =>
    intro b
    simp only [foldMax, List.foldl_cons]
    refine le_trans ?_ (ih (if b < f x then f x else b))
    by_cases h : b < f x
    · rw [if_pos h]; exact le_of_lt h
    · rw [if_neg h]

lemma foldMax_ge_mem (f : ℕ → ℚ) (l : List ℕ) :
    ∀ b : ℚ, ∀ x ∈ l, f x ≤ foldMax f b l := by
  induction l with
  | nil => simp
  | cons y ys ih =>
    intro b x hx
    simp only [foldMax, List.foldl_cons]
    rcases List.mem_cons.mp hx with rfl | hx2
    · refine le_trans ?_ (le_foldMax_init f ys (if b < f x then f x else b))
      by_cases h : b < f x
      · rw [if_pos h]
      · rw [if_neg h]; exact le_of_not_lt h
    · exact ih (if b < f y then f y else b) x hx2

lemma foldMax_eq_mem (f : ℕ → ℚ) (l : List ℕ) :
    ∀ b : ℚ, foldMax f b l = b ∨ ∃ x ∈ l, foldMax f b l = f x := by
  induction l with
  | nil => intro b; exact Or.inl rfl
  | cons y ys ih =>
    intro b
    have hstep : foldMax f b (y :: ys) = foldMax f (if b < f y then f y else b) ys := rfl
    rcases ih (if b < f y then f y else b) with h | ⟨x, hx, h⟩
    · by_cases h2 : b < f y
      · right
        exact ⟨y, List.mem_cons_self y ys, by rw [hstep, h, if_pos h2]⟩
      · left
        rw [hstep, h, if_neg h2]
    · right
      exact ⟨x, List.mem_cons_of_mem y hx, hstep ▸ h⟩

lemma mem_rhoRange {M tau rho : ℕ} (h : tau ≤ M) :
    rho ∈ rhoRange M tau ↔ M - tau + 1 ≤ rho ∧ rho ≤ M := by
  unfold rhoRange pyRange
  rw [List.mem_range'_1]
  omega

lemma err_sg_nonneg (M tau nn rho : ℕ) : 0 ≤ err_sg M tau nn rho := by
  unfold err_sg
  split
  · exact le_refl 0
  · exact div_nonneg (div_nonneg (Nat.cast_nonneg _) (Nat.cast_nonneg _))
      (pow_nonneg (Nat.cast_nonneg _) _)

/-- C1: for 0 < tau < M, the value accumulated by `err` dominates every
`err_sg M tau n rho` with rho in the inclusive range [M-tau+1, M], and is
equal to one of those values, i.e. it is their maximum. -/
theorem err_base_is_max (M tau nn : ℕ) (h1 : 0 < tau) (h2 : tau < M) :
    (∀ rho, M - tau + 1 ≤ rho → rho ≤ M →
      err_sg M tau nn rho ≤ err_base M tau nn) ∧
    (∃ rho, (M - tau + 1 ≤ rho ∧ rho ≤ M) ∧
      err_base M tau nn = err_sg M tau nn rho) := by
  have hM : tau ≤ M := le_of_lt h2
  constructor
  · intro rho hr1 hr2
    exact foldMax_ge_mem _ _ 0 rho ((mem_rhoRange hM).mpr ⟨hr1, hr2⟩)
  · rcases foldMax_eq_mem (err_sg M tau nn) (rhoRange M tau) 0 with h | ⟨x, hx, h⟩
    · refine ⟨M - tau + 1, ⟨le_refl _, by omega⟩, ?_⟩
      have hmem : M - tau + 1 ∈ rhoRange M tau :=
        (mem_rhoRange hM).mpr ⟨le_refl _, by omega⟩
      have hub := foldMax_ge_mem (err_sg M tau nn) (rhoRange M tau) 0 _ hmem
      have hnn := err_sg_nonneg M tau nn (M - tau + 1)
      unfold err_base
      rw [h]
      unfold err_base at hub
      rw [h] at hub
      exact (le_antisymm hub hnn).symm
    · exact ⟨x, (mem_rhoRange hM).mp hx, h⟩

/-- Witness for C1 at M = 3, tau = 1, n = 2, rho = 3. -/
theorem err_base_is_max_w : err_sg 3 1 2 3 ≤ err_base 3 1 2 :=
  (err_base_is_max 3 1 2 (by decide) (by decide)).1 3 (by decide) (by decide)

/-- C3: `err` appends (M, tau) to the candidate list exactly when the
accumulated maximum is strictly below target = 0.5 ^ 60, and everything in
the resulting list is either an old entry or the pair (M, tau) recorded
under that condition: rejected pairs leave the list unchanged. -/
theorem err_append_iff :
    ∀ (M tau nn : ℕ) (lst : List (ℕ × ℕ)),
      (err M tau nn lst = lst ++ [(M, tau)] ↔ err_base M tau nn < target) ∧
      ∀ p ∈ err M tau nn lst,
        p ∈ lst ∨ (p = (M, tau) ∧ err_base M tau nn < target) := by
  intro M tau nn lst
  unfold err
  split_ifs with h
  · refine ⟨iff_of_true rfl h, fun p hp => ?_⟩
    rcases List.mem_append.mp hp with h2 | h2
    · exact Or.inl h2
    · exact Or.inr ⟨List.mem_singleton.mp h2, h⟩
  · refine ⟨iff_of_false ?_ h, fun p hp => Or.inl hp⟩
    intro he
    have hlen := congrArg List.length he
    simp at hlen

/-- Witness for C3 on the list [(7, 7)] with M = 3, tau = 1, n = 2. -/
theorem err_append_iff_w :
    ((7 : ℕ), (7 : ℕ)) ∈ [((7 : ℕ), (7 : ℕ))] ∨
      ((7, 7) = ((3 : ℕ), (1 : ℕ)) ∧ err_base 3 1 2 < target) :=
  (err_append_iff 3 1 2 [(7, 7)]).2 (7, 7) (by with_unfolding_all decide)

/-- C5: whenever the overflow condition of the ratio computation holds,
`err_sg` returns exactly 0 instead of propagating a failure. -/
theorem err_sg_overflow_zero :
    ∀ M tau nn rho : ℕ,
      err_sg_ovf M tau nn rho = true → err_sg M tau nn rho = 0 := by
  intro M tau nn rho h
  unfold err_sg
  rw [if_pos h]

/-- Witness for C5: n = 2 ^ 1024 makes c overflow the double range. -/
theorem err_sg_overflow_zero_w : err_sg 2 1 (2 ^ 1024) 2 = 0 :=
  err_sg_overflow_zero 2 1 (2 ^ 1024) 2 (by with_unfolding_all decide)

/-- C6: for 0 < tau < M, n ≥ 1 and rho in the inclusive range [M-tau+1, M],
when no overflow occurs `err_sg` returns a value in [0, 1], because
a = C(rho, M-tau) ≤ b = C(M, M-tau) and c = n ^ (rho-M+tau) ≥ 1. -/
theorem err_sg_in_unit_interval (M tau nn rho : ℕ) (_h1 : 0 < tau) (_h2 : tau < M)
    (h3 : 1 ≤ nn) (h4 : M - tau + 1 ≤ rho) (h5 : rho ≤ M)
    (h6 : err_sg_ovf M tau nn rho = false) :
    0 ≤ err_sg M tau nn rho ∧ err_sg M tau nn rho ≤ 1 := by
  refine ⟨err_sg_nonneg M tau nn rho, ?_⟩
  unfold err_sg
  have h6x : ¬ (err_sg_ovf M tau nn rho = true) := by simp [h6]
  rw [if_neg h6x]
  have hsub1 : M - tau ≤ rho := by omega
  have hsub2 : M - tau ≤ M := by omega
  have habn : ncr rho (M - tau) ≤ ncr M (M - tau) := by
    rw [ncr_eq_choose hsub1, ncr_eq_choose hsub2]
    exact Nat.choose_le_choose _ h5
  have hab : (ncr rho (M - tau) : ℚ) ≤ (ncr M (M - tau) : ℚ) := by
    exact_mod_cast habn
  have hbposn : 0 < ncr M (M - tau) := by
    rw [ncr_eq_choose hsub2]
    exact Nat.choose_pos hsub2
  have hbpos : (0 : ℚ) < (ncr M (M - tau) : ℚ) := by exact_mod_cast hbposn
  have hc1 : (1 : ℚ) ≤ (nn : ℚ) ^ (rho + tau - M) :=
    one_le_pow₀ (by exact_mod_cast h3)
  refine le_trans (div_le_self ?_ hc1) ((div_le_one hbpos).mpr hab)
  exact div_nonneg (Nat.cast_nonneg _) (Nat.cast_nonneg _)

/-- Witness for C6 at M = 3, tau = 1, n = 2, rho = 3. -/
theorem err_sg_in_unit_interval_w :
    0 ≤ err_sg 3 1 2 3 ∧ err_sg 3 1 2 3 ≤ 1 :=
  err_sg_in_unit_interval 3 1 2 3 (by decide) (by decide) (by decide) (by decide)
    (by decide) (by with_unfolding_all decide)

/-! Lemmas about the main search loop. -/

lemma err_mem_mono {p : ℕ × ℕ} {lst : List (ℕ × ℕ)} (M tau nn : ℕ) (h : p ∈ lst) :
    p ∈ err M tau nn lst := by
  unfold err
  split_ifs
  · exact List.mem_append_left _ h
  · exact h

lemma searchFold_mem_mono {p : ℕ × ℕ} (nn : ℕ) (pairs : List (ℕ × ℕ)) :
    ∀ acc, p ∈ acc → p ∈ searchFold nn acc pairs := by
  induction pairs with
  | nil => intro acc h; exact h
  | cons q qs ih =>
    intro acc h
    exact ih (err q.1 q.2 nn acc) (err_mem_mono q.1 q.2 nn h)

lemma searchFold_mem_of_pair {M tau : ℕ} (nn : ℕ) (pairs : List (ℕ × ℕ)) :
    ∀ acc, (M, tau) ∈ pairs → err_base M tau nn < target →
      (M, tau) ∈ searchFold nn acc pairs := by
  induction pairs with
  | nil => intro acc h _; cases h
  | cons q qs ih =>
    intro acc hmem hlt
    rcases List.mem_cons.mp hmem with h | h
    · subst h
      have hadd : (M, tau) ∈ err M tau nn acc := by
        unfold err
        rw [if_pos hlt]
        exact List.mem_append_right _ (List.mem_singleton_self _)
      exact searchFold_mem_mono nn qs (err M tau nn acc) hadd
    · exact ih (err q.1 q.2 nn acc) h hlt

lemma searchFold_subset {p : ℕ × ℕ} (nn : ℕ) (pairs : List (ℕ × ℕ)) :
    ∀ acc, p ∈ searchFold nn acc pairs → p ∈ acc ∨ p ∈ pairs := by
  induction pairs with
  | nil => intro acc h; exact Or.inl h
  | cons q qs ih =>
    intro acc h
    rcases ih (err q.1 q.2 nn acc) h with h2 | h2
    · unfold err at h2
      split_ifs at h2
      · rcases List.mem_append.mp h2 with h3 | h3
        · exact Or.inl h3
        · right
          rw [List.mem_singleton.mp h3, Prod.mk.eta]
          exact List.mem_cons_self q qs
      · exact Or.inl h2
    · exact Or.inr (List.mem_cons_of_mem q h2)

/-- C7: with the production parameters (n = 16, target = 0.5 ^ 60,
M over [64, 512) step 8, tau over [8, 50) step 8), the search yields a
non-sentinel printed pair whose tau is strictly below 10000: at least one
searched pair has worst-case error below the target. -/
theorem search_output_non_sentinel :
    min_tuples runSearch ≠ (10000, 10000) ∧ (min_tuples runSearch).2 < 10000 := by
  have hpair : ((128, 48) : ℕ × ℕ) ∈ searchParams := by decide
  have hlt : err_base 128 48 n < target := by with_unfolding_all decide
  have hmem : ((128, 48) : ℕ × ℕ) ∈ runSearch :=
    searchFold_mem_of_pair n searchParams [] hpair hlt
  have hne : runSearch ≠ [] := List.ne_nil_of_mem hmem
  have hbnd : ∀ p ∈ runSearch, p.2 ≤ 48 := by
    intro p hp
    rcases searchFold_subset n searchParams [] hp with h | h
    · cases h
    · have hall : ∀ q ∈ searchParams, q.2 ≤ 48 := by decide
      exact hall p h
  obtain ⟨hmin, _⟩ := min_tuples_spec hne hbnd
  have h48 : (min_tuples runSearch).2 ≤ 48 := hbnd _ hmin
  constructor
  · intro heq
    rw [heq] at h48
    exact absurd h48 (by decide)
  · exact lt_of_le_of_lt h48 (by norm_num)

/-! Lemmas about the log parser. -/

lemma parseLoop_elapsed_fails (names : List String) (v : ℚ) (rest : List LogLine) :
    ∀ (pre : List LogLine) (d : List PEntry) (i : ℕ),
      (∀ l ∈ pre, l.isSize = false) →
      ∃ e, parseLoop names ⟨none, d⟩ i (pre ++ LogLine.elapsed v :: rest) = .error e := by
  intro pre
  induction pre with
  | nil =>
    intro d i _
    exact ⟨.nameError, rfl⟩
  | cons l ls ih =>
    intro d i hpre
    have hl := hpre l (List.mem_cons_self l ls)
    cases l with
    | size w => simp [LogLine.isSize] at hl
    | elapsed w => exact ⟨.nameError, rfl⟩
    | other =>
      have hih := ih d (i + 1) (fun x hx => hpre x (List.mem_cons_of_mem _ hx))
      exact hih

lemma parseLoop_index_fails (names : List String) (v : ℕ) (rest : List LogLine) :
    ∀ (pre : List LogLine) (st : PState) (i : ℕ),
      names.length ≤ i + pre.length →
      ∃ e, parseLoop names st i (pre ++ LogLine.size v :: rest) = .error e := by
  intro pre
  induction pre with
  | nil =>
    intro st i hlen
    have hget : names.get? i = none := by
      rw [List.get?_eq_none]
      simpa using hlen
    have hstep : parseStep names st i (.size v) = .error .indexError := by
      unfold parseStep
      rw [hget]
    refine ⟨.indexError, ?_⟩
    show parseLoop names st i (LogLine.size v :: rest) = .error .indexError
    unfold parseLoop
    rw [hstep]
  | cons l ls ih =>
    intro st i hlen
    cases hstep : parseStep names st i l with
    | ok st2 =>
      obtain ⟨e, he⟩ := ih st2 (i + 1) (by simp only [List.length_cons] at hlen; omega)
      refine ⟨e, ?_⟩
      show parseLoop names st i (l :: (ls ++ LogLine.size v :: rest)) = .error e
      unfold parseLoop
      rw [hstep]
      exact he
    | error e =>
      refine ⟨e, ?_⟩
      show parseLoop names st i (l :: (ls ++ LogLine.size v :: rest)) = .error e
      unfold parseLoop
      rw [hstep]

lemma runParser_fails_of_loop {names : List String} {lines : List LogLine} {e : PError}
    (h : parseLoop names ⟨none, []⟩ 0 lines = .error e) :
    isFailure (runParser names lines) = true := by
  unfold runParser
  rw [h]
  rfl

/-- C9 counterexample: a log with 3 matching lines (fewer than the 25 names
of the hardcoded list) whose size and elapsed lines are moreover not
strictly interleaved (two consecutive elapsed lines) parses without any
failure: the run returns one complete row. -/
theorem parser_short_input_succeeds :
    runParser circuit_names
        [LogLine.size 5, LogLine.elapsed 3, LogLine.elapsed 4] =
      .ok [("amortized_aco_512_12.txt", 5, 4)] ∧
    [LogLine.size 5, LogLine.elapsed 3, LogLine.elapsed 4].length <
      circuit_names.length := by
  constructor
  · with_unfolding_all rfl
  · decide

/-- C9 amended: the parser fails (unrecoverably, by construction) whenever
an elapsed line occurs with no size line anywhere before it, and whenever a
size line occurs at a raw line index at or beyond the length of the
hardcoded circuit-name list; a log with fewer matching lines than that
length does not by itself make the parser fail. -/
theorem parser_failure_conditions (names : List String) (lines : List LogLine) :
    ((∃ pre v rest, lines = pre ++ LogLine.elapsed v :: rest ∧
        ∀ l ∈ pre, l.isSize = false) →
      isFailure (runParser names lines) = true) ∧
    ((∃ pre v rest, lines = pre ++ LogLine.size v :: rest ∧
        names.length ≤ pre.length) →
      isFailure (runParser names lines) = true) := by
  constructor
  · rintro ⟨pre, v, rest, rfl, hpre⟩
    obtain ⟨e, he⟩ := parseLoop_elapsed_fails names v rest pre [] 0 hpre
    exact runParser_fails_of_loop he
  · rintro ⟨pre, v, rest, rfl, hlen⟩
    obtain ⟨e, he⟩ := parseLoop_index_fails names v rest pre ⟨none, []⟩ 0 (by omega)
    exact runParser_fails_of_loop he

/-- Witness for the amended C9: a log starting with an elapsed line fails. -/
theorem parser_failure_conditions_w :
    isFailure (runParser circuit_names [LogLine.elapsed 1]) = true :=
  (parser_failure_conditions circuit_names [LogLine.elapsed 1]).1
    ⟨[], 1, [], rfl, by simp⟩

end Reverie
